import Mathlib

/-!
Shallow embedding of the customer-purchase-analysis pipeline (`src/app.py`).

Raw retail transaction lines are sanitized (drop null customer ids, drop
non-positive quantities and unit prices), enriched with derived fields
(`TotalPrice`, `YearMonth`, `Month`, `DayOfWeek`, `Hour`), filtered by a
user-selected set of months, and reduced into the dashboard's aggregate
views (weekday totals, weekday-by-hour matrix, top products, country
revenue shares).

Decimal values (unit prices, revenue) are modelled as rationals; pandas
`groupby` over a sorted key is modelled as a sorted deduplication of the
observed keys followed by a per-key filtered sum; `nlargest` is modelled
as a stable descending sort by value followed by `take`, matching the
documented first-occurrence tie handling.
-/

namespace PurchaseAnalysis

/-- Lexicographic comparison of character lists by code point, mirroring the
string ordering pandas uses when sorting group keys.  Defined structurally so
that it evaluates inside the kernel. -/
def charListLe : List Char → List Char → Bool
  | [], _ => true
  | _ :: _, [] => false
  | a :: as, b :: bs =>
    if a.toNat < b.toNat then true
    else if b.toNat < a.toNat then false
    else charListLe as bs

/-- String comparison used for sorting group keys. -/
def strLe (s t : String) : Bool :=
  charListLe s.data t.data

/-- Propositional form of `strLe`. -/
def StrLe (s t : String) : Prop :=
  strLe s t = true

instance : DecidableRel StrLe := fun s t => by
  unfold StrLe
  infer_instance

/-- Strict form of the string key order: `s` comes strictly before `t`. -/
def StrLt (s t : String) : Prop :=
  StrLe s t ∧ s ≠ t

/-- The timestamp attached to an invoice line; `hour` is the hour-of-day
component of the stored local time. -/
structure Timestamp where
  year : Nat
  month : Nat
  day : Nat
  hour : Nat
deriving DecidableEq

/-- One raw transaction line as loaded from the source table. -/
structure RawLine where
  invoiceNo : String
  customerId : Option ℚ
  description : String
  quantity : ℤ
  unitPrice : ℚ
  invoiceDate : Timestamp
  country : String
deriving DecidableEq

/-- A sanitized transaction line: the customer id has been established and
coerced to an integer; the validity filters have been applied. -/
structure SanLine where
  invoiceNo : String
  customerId : ℤ
  description : String
  quantity : ℤ
  unitPrice : ℚ
  invoiceDate : Timestamp
  country : String
deriving DecidableEq

/-- A cleaned line with all derived fields attached (`app.py` lines 45-53).
`dayOfWeek` is the categorical weekday: `none` models the `NaN` that
`pd.Categorical` produces for a value outside its category list. -/
structure CleanLine where
  invoiceNo : String
  customerId : ℤ
  description : String
  quantity : ℤ
  unitPrice : ℚ
  invoiceDate : Timestamp
  country : String
  totalPrice : ℚ
  yearMonth : String
  month : Nat
  dayOfWeek : Option String
  hour : Nat
deriving DecidableEq

/-- The canonical weekday category list (`day_order`, `app.py` line 52). -/
def day_order : List String :=
  ["Monday", "Tuesday", "Wednesday", "Thursday", "Friday", "Saturday", "Sunday"]

/-- `int(...)` coercion of the numeric customer id: truncation toward zero,
as Python's `astype(int)` performs on the float-typed column. -/
def coerceCustomerId (q : ℚ) : ℤ :=
  q.num.tdiv q.den

/-- The sanitizer (`app.py` lines 37-42): drop rows with a null customer id,
coerce the id to an integer, and drop rows whose quantity or unit price is
not strictly positive. -/
def sanitize (raws : List RawLine) : List SanLine :=
  raws.filterMap fun r =>
    r.customerId.bind fun c =>
      if 0 < r.quantity ∧ 0 < r.unitPrice then
        some { invoiceNo := r.invoiceNo
               customerId := coerceCustomerId c
               description := r.description
               quantity := r.quantity
               unitPrice := r.unitPrice
               invoiceDate := r.invoiceDate
               country := r.country }
      else none

/-- Sakamoto day-of-week offsets, one per month. -/
def sakamotoOffsets : List Nat :=
  [0, 3, 2, 5, 0, 3, 5, 1, 4, 6, 2, 4]

/-- Day-of-week index of a calendar date (0 = Sunday, ..., 6 = Saturday),
modelling the weekday computed by the datetime library. -/
def dowIndex (y m d : Nat) : Nat :=
  let yy := if m < 3 then y - 1 else y
  (yy + yy / 4 + 6 * (yy / 100) + yy / 400 + sakamotoOffsets.getD (m - 1) 0 + d) % 7

/-- Weekday name of a day-of-week index. -/
def dayNameOfIndex : Nat → String
  | 0 => "Sunday"
  | 1 => "Monday"
  | 2 => "Tuesday"
  | 3 => "Wednesday"
  | 4 => "Thursday"
  | 5 => "Friday"
  | _ => "Saturday"

/-- `dt.day_name()` of a timestamp. -/
def dayNameOf (t : Timestamp) : String :=
  dayNameOfIndex (dowIndex t.year t.month t.day)

/-- The categorical conversion of `app.py` line 53: `pd.Categorical` keeps a
value that appears in the category list and silently turns any other value
into `NaN` (modelled as `none`). -/
def toDayCategorical (s : String) : Option String :=
  if s ∈ day_order then some s else none

/-- Zero-padded two-digit rendering of a month number. -/
def pad2 (n : Nat) : String :=
  if n < 10 then "0" ++ toString n else toString n

/-- The `"YYYY-MM"` period label of a timestamp (`app.py` line 46). -/
def yearMonthOf (t : Timestamp) : String :=
  toString t.year ++ "-" ++ pad2 t.month

/-- The field deriver (`app.py` lines 45-53): attach `TotalPrice`,
`YearMonth`, `Month`, `DayOfWeek` (categorical) and `Hour` to a sanitized
line. -/
def derive (s : SanLine) : CleanLine :=
  { invoiceNo := s.invoiceNo
    customerId := s.customerId
    description := s.description
    quantity := s.quantity
    unitPrice := s.unitPrice
    invoiceDate := s.invoiceDate
    country := s.country
    totalPrice := (s.quantity : ℚ) * s.unitPrice
    yearMonth := yearMonthOf s.invoiceDate
    month := s.invoiceDate.month
    dayOfWeek := toDayCategorical (dayNameOf s.invoiceDate)
    hour := s.invoiceDate.hour }

/-- Derivation applied to every sanitized row, in order. -/
def deriveAll (l : List SanLine) : List CleanLine :=
  l.map derive

/-- Sanity check of the weekday computation: 2011-01-05 is a Wednesday. -/
theorem dayNameOf_jan5_2011 : dayNameOf ⟨2011, 1, 5, 10⟩ = "Wednesday" := by
  decide

/-- The `TimeFilter` (`app.py` lines 68-72): a non-empty month selection
keeps the rows whose `month` is selected; an empty selection falls back to
the whole dataset and raises the sidebar warning (the returned flag). -/
def timeFilter (months : List Nat) (rows : List CleanLine) : List CleanLine × Bool :=
  if months.isEmpty then (rows, true)
  else (rows.filter (fun r => r.month ∈ months), false)

/-- Sorted deduplication of a key list: the index produced by a pandas
`groupby` (or `unique`) over that key, for a caller-supplied total order. -/
def sortedDedup {κ : Type} [DecidableEq κ] (r : κ → κ → Prop) [DecidableRel r]
    (l : List κ) : List κ :=
  List.insertionSort r l.dedup

/-- The month options offered by the sidebar widget (`app.py` line 63):
the sorted distinct months present in the cleaned dataset. -/
def monthOptions (rows : List CleanLine) : List Nat :=
  sortedDedup (· ≤ ·) (rows.map (·.month))

/-- Sum of `TotalPrice` over the rows satisfying a predicate. -/
def sumOver (rows : List CleanLine) (p : CleanLine → Prop) [DecidablePred p] : ℚ :=
  ((rows.filter (fun r => p r)).map (·.totalPrice)).sum

/-- Weekday totals (`app.py` line 139): grouping by the categorical
`DayOfWeek` yields one entry per category, in category order, with empty
categories summing to zero; rows whose categorical value is `NaN` are
dropped by `groupby`. -/
def daily_sales (rows : List CleanLine) : List (String × ℚ) :=
  day_order.map fun d => (d, sumOver rows (fun r => r.dayOfWeek = some d))

/-- The hour values observed among the rows that carry a valid categorical
weekday, sorted ascending: the column index of the weekday-by-hour
`unstack`. -/
def observedHours (rows : List CleanLine) : List Nat :=
  sortedDedup (· ≤ ·) ((rows.filter (fun r => r.dayOfWeek.isSome)).map (·.hour))

/-- The weekday-by-hour matrix (`app.py` line 151): one row per weekday
category in category order; one column per observed hour; a missing
(weekday, hour) combination becomes an explicit zero via `fill_value=0`. -/
def hourly_sales (rows : List CleanLine) : List (String × List ℚ) :=
  day_order.map fun d =>
    (d, (observedHours rows).map fun h =>
      sumOver rows (fun r => r.dayOfWeek = some d ∧ r.hour = h))

/-- Pandas `groupby(key)[val].sum()`: one entry per distinct key, keys in
the order given by `r`, each paired with the sum of `val` over its rows. -/
def groupSum {κ β : Type} [DecidableEq κ] (r : κ → κ → Prop) [DecidableRel r]
    [AddCommMonoid β] (key : CleanLine → κ) (val : CleanLine → β)
    (rows : List CleanLine) : List (κ × β) :=
  (sortedDedup r (rows.map key)).map fun k =>
    (k, ((rows.filter (fun x => key x = k)).map val).sum)

/-- Pandas `nlargest(n)` over a keyed series: stable descending sort by
value, then take the first `n`; with `keep='first'` ties are resolved in
favour of the earlier position, i.e. the smaller group key. -/
def nlargestBy {κ β : Type} [LinearOrder β] (n : Nat) (l : List (κ × β)) :
    List (κ × β) :=
  (List.insertionSort (fun a b => b.2 ≤ a.2) l).take n

/-- Top products by summed quantity (`app.py` line 171). -/
def top_selling_products_qty (rows : List CleanLine) : List (String × ℤ) :=
  nlargestBy 10 (groupSum StrLe (·.description) (·.quantity) rows)

/-- Revenue grouped by country (`app.py` line 201). -/
def country_sales (rows : List CleanLine) : List (String × ℚ) :=
  groupSum StrLe (·.country) (·.totalPrice) rows

/-- The eleven largest countries by revenue (`app.py` line 204). -/
def country_sales_top_10 (rows : List CleanLine) : List (String × ℚ) :=
  nlargestBy 11 (country_sales rows)

/-- The two shapes the country-share view can take (`app.py` lines 205-225):
either every country except the dominant one, or the `nlargest(11)`
selection itself. -/
inductive CountryBranch where
  | restOfDominant : List (String × ℚ) → CountryBranch
  | topN : List (String × ℚ) → CountryBranch
deriving DecidableEq

/-- The country-share aggregation (`app.py` lines 204-225): if
`"United Kingdom"` appears among the eleven largest countries by revenue,
show every other country; otherwise show the `nlargest(11)` selection. -/
def country_share_view (rows : List CleanLine) : CountryBranch :=
  if "United Kingdom" ∈ (country_sales_top_10 rows).map Prod.fst then
    CountryBranch.restOfDominant
      ((country_sales rows).filter (fun p => ¬ p.1 = "United Kingdom"))
  else
    CountryBranch.topN (country_sales_top_10 rows)

/-- The bundle of aggregate views the dashboard renders from a non-empty
filtered dataset. -/
structure Views where
  daily : List (String × ℚ)
  hourly : List (String × List ℚ)
  topQty : List (String × ℤ)
  country : CountryBranch
deriving DecidableEq

/-- Outcome of one pipeline run: either the empty-result halt of
`app.py` lines 75-77 (`st.stop()` before any aggregation), or the
aggregate views. -/
inductive PipelineResult where
  | emptyResult : PipelineResult
  | views : Views → PipelineResult
deriving DecidableEq

/-- One run of the filter-and-aggregate stage: apply the `TimeFilter`,
halt with `emptyResult` when it yields no rows, otherwise compute every
aggregate view.  The boolean is the fallback-warning flag of the filter. -/
def runPipeline (months : List Nat) (cleaned : List CleanLine) :
    Bool × PipelineResult :=
  let fw := timeFilter months cleaned
  if fw.1.isEmpty then (fw.2, PipelineResult.emptyResult)
  else
    (fw.2, PipelineResult.views
      { daily := daily_sales fw.1
        hourly := hourly_sales fw.1
        topQty := top_selling_products_qty fw.1
        country := country_share_view fw.1 })

/-! ### Order properties of the string key comparison -/

theorem charListLe_refl : ∀ as : List Char, charListLe as as = true
  | [] => rfl
  | a :: as => by simp [charListLe, charListLe_refl as]

theorem charListLe_total : ∀ as bs : List Char,
    charListLe as bs = true ∨ charListLe bs as = true
  | [], _ => Or.inl rfl
  | _ :: _, [] => Or.inr rfl
  | a :: as, b :: bs => by
    rcases Nat.lt_trichotomy a.toNat b.toNat with h | h | h
    · exact Or.inl (by simp [charListLe, h])
    · rcases charListLe_total as bs with ih | ih
      · exact Or.inl (by simp [charListLe, h, ih])
      · exact Or.inr (by simp [charListLe, h, ih])
    · exact Or.inr (by simp [charListLe, h])

theorem charListLe_trans : ∀ as bs cs : List Char,
    charListLe as bs = true → charListLe bs cs = true → charListLe as cs = true
  | [], _, _ => fun _ _ => rfl
  | _ :: _, [], _ => fun h _ => by simp [charListLe] at h
  | _ :: _, _ :: _, [] => fun _ h => by simp [charListLe] at h
  | a :: as, b :: bs, c :: cs => fun h1 h2 => by
    simp only [charListLe] at h1 h2 ⊢
    rcases Nat.lt_trichotomy a.toNat b.toNat with hab | hab | hab
    · rcases Nat.lt_trichotomy b.toNat c.toNat with hbc | hbc | hbc
      · simp [show a.toNat < c.toNat by omega]
      · simp [show a.toNat < c.toNat by omega]
      · rw [if_neg (by omega), if_pos hbc] at h2
        simp at h2
    · rw [if_neg (by omega), if_neg (by omega)] at h1
      rcases Nat.lt_trichotomy b.toNat c.toNat with hbc | hbc | hbc
      · simp [show a.toNat < c.toNat by omega]
      · rw [if_neg (by omega), if_neg (by omega)] at h2
        rw [if_neg (by omega), if_neg (by omega)]
        exact charListLe_trans as bs cs h1 h2
      · rw [if_neg (by omega), if_pos hbc] at h2
        simp at h2
    · rw [if_neg (by omega), if_pos hab] at h1
      simp at h1

theorem charListLe_antisymm : ∀ as bs : List Char,
    charListLe as bs = true → charListLe bs as = true → as = bs
  | [], [] => by intro _ _; rfl
  | [], _ :: _ => by intro _ h; simp [charListLe] at h
  | _ :: _, [] => by intro h _; simp [charListLe] at h
  | a :: as, b :: bs => by
    intro h1 h2
    simp only [charListLe] at h1 h2
    split_ifs at h1 h2 with hab hba
    · omega
    · have hn : a.toNat = b.toNat := by omega
      have ha : a = b := by
        have := congrArg Char.ofNat hn
        rwa [Char.ofNat_toNat, Char.ofNat_toNat] at this
      rw [ha, charListLe_antisymm as bs h1 h2]

instance : IsTotal String StrLe :=
  ⟨fun s t => charListLe_total s.data t.data⟩

instance : IsTrans String StrLe :=
  ⟨fun a b c h1 h2 => charListLe_trans a.data b.data c.data h1 h2⟩

instance : IsAntisymm String StrLe := by
  refine ⟨fun a b h1 h2 => ?_⟩
  have := charListLe_antisymm a.data b.data h1 h2
  exact congrArg String.mk this

/-! ### Generic facts about `sortedDedup`, `sumOver`, `groupSum` -/

theorem mem_sortedDedup {κ : Type} [DecidableEq κ] (r : κ → κ → Prop)
    [DecidableRel r] {l : List κ} {x : κ} : x ∈ sortedDedup r l ↔ x ∈ l := by
  unfold sortedDedup
  rw [List.mem_insertionSort, List.mem_dedup]

theorem nodup_sortedDedup {κ : Type} [DecidableEq κ] (r : κ → κ → Prop)
    [DecidableRel r] (l : List κ) : (sortedDedup r l).Nodup :=
  (List.perm_insertionSort r l.dedup).symm.nodup (List.nodup_dedup l)

theorem sorted_sortedDedup {κ : Type} [DecidableEq κ] (r : κ → κ → Prop)
    [DecidableRel r] [IsTotal κ r] [IsTrans κ r] (l : List κ) :
    (sortedDedup r l).Sorted r :=
  List.sorted_insertionSort r l.dedup

theorem pairwise_strict_sortedDedup {κ : Type} [DecidableEq κ]
    (r : κ → κ → Prop) [DecidableRel r] [IsTotal κ r] [IsTrans κ r]
    (l : List κ) :
    (sortedDedup r l).Pairwise (fun a b => r a b ∧ a ≠ b) :=
  (sorted_sortedDedup r l).and (nodup_sortedDedup r l)

theorem sortedDedup_perm_eq {κ : Type} [DecidableEq κ] (r : κ → κ → Prop)
    [DecidableRel r] [IsTotal κ r] [IsTrans κ r] [IsAntisymm κ r]
    {l₁ l₂ : List κ} (h : List.Perm l₁ l₂) :
    sortedDedup r l₁ = sortedDedup r l₂ := by
  refine List.eq_of_perm_of_sorted ?_ (sorted_sortedDedup r l₁) (sorted_sortedDedup r l₂)
  exact (List.perm_insertionSort r l₁.dedup).trans
    (h.dedup.trans (List.perm_insertionSort r l₂.dedup).symm)

theorem sumOver_nil (p : CleanLine → Prop) [DecidablePred p] :
    sumOver [] p = 0 := rfl

theorem sumOver_cons (x : CleanLine) (rows : List CleanLine)
    (p : CleanLine → Prop) [DecidablePred p] :
    sumOver (x :: rows) p = (if p x then x.totalPrice else 0) + sumOver rows p := by
  unfold sumOver
  rw [List.filter_cons]
  by_cases h : p x <;> simp [h]

theorem sumOver_perm {rows₁ rows₂ : List CleanLine} (h : List.Perm rows₁ rows₂)
    (p : CleanLine → Prop) [DecidablePred p] :
    sumOver rows₁ p = sumOver rows₂ p :=
  ((h.filter _).map _).sum_eq

theorem sumOver_eq_zero {rows : List CleanLine} {p : CleanLine → Prop}
    [DecidablePred p] (h : ∀ r ∈ rows, ¬ p r) : sumOver rows p = 0 := by
  unfold sumOver
  have : rows.filter (fun r => p r) = [] := by
    simp only [List.filter_eq_nil_iff, decide_eq_true_eq]
    exact h
  rw [this]
  rfl

theorem sumOver_nonneg {rows : List CleanLine} (p : CleanLine → Prop)
    [DecidablePred p] (h : ∀ r ∈ rows, 0 ≤ r.totalPrice) :
    0 ≤ sumOver rows p := by
  unfold sumOver
  refine List.sum_nonneg ?_
  intro x hx
  obtain ⟨r, hr, rfl⟩ := List.mem_map.mp hx
  exact h r (List.mem_of_mem_filter hr)

theorem sumOver_filter_true {rows : List CleanLine} {p : CleanLine → Prop}
    [DecidablePred p] (h : ∀ r ∈ rows, p r) :
    sumOver rows p = (rows.map (·.totalPrice)).sum := by
  unfold sumOver
  have : rows.filter (fun r => p r) = rows := by
    rw [List.filter_eq_self]
    intro a ha
    simpa using h a ha
  rw [this]

theorem sum_map_ite {κ : Type} [DecidableEq κ] :
    ∀ (K : List κ), K.Nodup → ∀ (b : κ) (x : ℚ) (g : κ → ℚ),
      (K.map fun c => if b = c then x + g c else g c).sum
        = (if b ∈ K then x else 0) + (K.map g).sum
  | [], _, b, x, g => by simp
  | c :: K, hK, b, x, g => by
    have hK' : K.Nodup := hK.of_cons
    by_cases hbc : b = c
    · subst hbc
      have hbK : b ∉ K := (List.nodup_cons.mp hK).1
      rw [List.map_cons, List.map_cons, List.sum_cons, List.sum_cons, if_pos rfl,
        if_pos (List.mem_cons_self b K), sum_map_ite K hK' b x g, if_neg hbK]
      ring
    · rw [List.map_cons, List.map_cons, List.sum_cons, List.sum_cons, if_neg hbc,
        sum_map_ite K hK' b x g]
      have : (if b ∈ c :: K then x else 0) = (if b ∈ K then x else 0) := by
        by_cases h : b ∈ K
        · rw [if_pos h, if_pos (List.mem_cons_of_mem c h)]
        · rw [if_neg h, if_neg (by simp [List.mem_cons, hbc, h])]
      rw [this]
      ring

/-- Summing the per-key group totals over a duplicate-free key list equals
summing directly over the rows whose key lies in that list. -/
theorem sum_sumOver_partition {κ : Type} [DecidableEq κ] (k : CleanLine → κ) :
    ∀ (rows : List CleanLine) (K : List κ), K.Nodup →
      (K.map fun c => sumOver rows (fun r => k r = c)).sum
        = sumOver rows (fun r => k r ∈ K)
  | [], K, _ => by
    rw [sumOver_nil]
    refine List.sum_eq_zero ?_
    intro x hx
    obtain ⟨c, _, rfl⟩ := List.mem_map.mp hx
    rfl
  | x :: rows, K, hK => by
    have step : ∀ c : κ, sumOver (x :: rows) (fun r => k r = c)
        = if k x = c then x.totalPrice + sumOver rows (fun r => k r = c)
          else sumOver rows (fun r => k r = c) := by
      intro c
      rw [sumOver_cons]
      by_cases h : k x = c
      · rw [if_pos h, if_pos h]
      · rw [if_neg h, if_neg h, zero_add]
    rw [List.map_congr_left (fun c _ => step c), sum_map_ite K hK (k x) x.totalPrice
      (fun c => sumOver rows (fun r => k r = c)),
      sum_sumOver_partition k rows K hK, sumOver_cons]

/-! ### Stability of `nlargestBy`: the stable descending sort of a list
whose entries are pairwise related by a key relation `K` is pairwise
ordered by "strictly larger value, or equal value and `K`". -/

theorem pairwise_lex_orderedInsert {κ β : Type} [LinearOrder β]
    (K : κ × β → κ × β → Prop) (a : κ × β) :
    ∀ l : List (κ × β),
      l.Pairwise (fun x y => y.2 < x.2 ∨ (x.2 = y.2 ∧ K x y)) →
      (∀ b ∈ l, K a b) →
      (List.orderedInsert (fun x y => y.2 ≤ x.2) a l).Pairwise
        (fun x y => y.2 < x.2 ∨ (x.2 = y.2 ∧ K x y))
  | [], _, _ => List.pairwise_singleton _ a
  | b :: t, hl, hk => by
    rw [List.orderedInsert]
    by_cases hba : b.2 ≤ a.2
    · rw [if_pos hba]
      refine List.Pairwise.cons ?_ hl
      intro c hc
      rcases List.mem_cons.mp hc with rfl | hct
      · rcases lt_or_eq_of_le hba with h | h
        · exact Or.inl h
        · exact Or.inr ⟨h.symm, hk c (List.mem_cons_self c t)⟩
      · have hbc := (List.pairwise_cons.mp hl).1 c hct
        have hc2 : c.2 ≤ b.2 := by
          rcases hbc with h | h
          · exact le_of_lt h
          · exact le_of_eq h.1.symm
        rcases lt_or_eq_of_le (le_trans hc2 hba) with h | h
        · exact Or.inl h
        · exact Or.inr ⟨h.symm, hk c (List.mem_cons_of_mem b hct)⟩
    · rw [if_neg hba]
      have ha2 : a.2 < b.2 := lt_of_not_le hba
      refine List.Pairwise.cons ?_
        (pairwise_lex_orderedInsert K a t (List.pairwise_cons.mp hl).2
          (fun c hc => hk c (List.mem_cons_of_mem b hc)))
      intro c hc
      rcases (List.mem_orderedInsert _).mp hc with rfl | hct
      · exact Or.inl ha2
      · exact (List.pairwise_cons.mp hl).1 c hct

theorem pairwise_lex_insertionSort {κ β : Type} [LinearOrder β]
    (K : κ × β → κ × β → Prop) :
    ∀ l : List (κ × β), l.Pairwise K →
      (List.insertionSort (fun x y => y.2 ≤ x.2) l).Pairwise
        (fun x y => y.2 < x.2 ∨ (x.2 = y.2 ∧ K x y))
  | [], _ => List.Pairwise.nil
  | a :: t, hl => by
    rw [List.insertionSort]
    refine pairwise_lex_orderedInsert K a _
      (pairwise_lex_insertionSort K t (List.pairwise_cons.mp hl).2) ?_
    intro b hb
    exact (List.pairwise_cons.mp hl).1 b ((List.mem_insertionSort _).mp hb)

/-! ### Facts about `groupSum` -/

theorem groupSum_keys {κ β : Type} [DecidableEq κ] (r : κ → κ → Prop)
    [DecidableRel r] [AddCommMonoid β] (key : CleanLine → κ)
    (val : CleanLine → β) (rows : List CleanLine) :
    (groupSum r key val rows).map Prod.fst = sortedDedup r (rows.map key) := by
  unfold groupSum
  rw [List.map_map]
  exact List.map_id _

theorem pairwise_key_groupSum {κ β : Type} [DecidableEq κ] (r : κ → κ → Prop)
    [DecidableRel r] [IsTotal κ r] [IsTrans κ r] [AddCommMonoid β]
    (key : CleanLine → κ) (val : CleanLine → β) (rows : List CleanLine) :
    (groupSum r key val rows).Pairwise (fun a b => r a.1 b.1 ∧ a.1 ≠ b.1) := by
  unfold groupSum
  rw [List.pairwise_map]
  exact pairwise_strict_sortedDedup r (rows.map key)

theorem groupSum_perm {κ β : Type} [DecidableEq κ] (r : κ → κ → Prop)
    [DecidableRel r] [IsTotal κ r] [IsTrans κ r] [IsAntisymm κ r]
    [AddCommMonoid β] (key : CleanLine → κ) (val : CleanLine → β)
    {rows₁ rows₂ : List CleanLine} (h : List.Perm rows₁ rows₂) :
    groupSum r key val rows₁ = groupSum r key val rows₂ := by
  unfold groupSum
  rw [sortedDedup_perm_eq r (h.map key)]
  refine List.map_congr_left ?_
  intro k _
  have : List.Perm (rows₁.filter (fun x => key x = k))
      (rows₂.filter (fun x => key x = k)) := h.filter _
  rw [(this.map _).sum_eq]

/-! ### Well-formedness of derived rows -/

theorem dayNameOfIndex_mem_day_order (n : Nat) : dayNameOfIndex n ∈ day_order := by
  unfold dayNameOfIndex
  rcases n with _ | _ | _ | _ | _ | _ | n
  · decide
  · decide
  · decide
  · decide
  · decide
  · decide
  · show "Saturday" ∈ day_order
    decide

theorem dayNameOf_mem_day_order (t : Timestamp) : dayNameOf t ∈ day_order :=
  dayNameOfIndex_mem_day_order _

theorem derive_wellformed (s : SanLine) (hq : 0 < s.quantity)
    (hu : 0 < s.unitPrice) (hh : s.invoiceDate.hour < 24) :
    (derive s).dayOfWeek ∈ day_order.map some ∧
      0 ≤ (derive s).totalPrice ∧ (derive s).hour < 24 := by
  refine ⟨?_, ?_, hh⟩
  · have hmem := dayNameOf_mem_day_order s.invoiceDate
    show toDayCategorical (dayNameOf s.invoiceDate) ∈ day_order.map some
    rw [toDayCategorical, if_pos hmem]
    exact List.mem_map_of_mem some hmem
  · show 0 ≤ (s.quantity : ℚ) * s.unitPrice
    have : (0 : ℚ) ≤ (s.quantity : ℚ) := by exact_mod_cast le_of_lt hq
    exact mul_nonneg this (le_of_lt hu)

/-! ### Example rows used to instantiate the theorems -/

/-- A valid raw line (integral price so that all checks evaluate). -/
def rawOk : RawLine :=
  { invoiceNo := "536365"
    customerId := some 17850
    description := "WHITE HANGING HEART"
    quantity := 6
    unitPrice := 3
    invoiceDate := ⟨2010, 12, 1, 8⟩
    country := "United Kingdom" }

/-- A raw line with a null customer id and a negative quantity (a return). -/
def rawBad : RawLine :=
  { invoiceNo := "C536379"
    customerId := none
    description := "Discount"
    quantity := -1
    unitPrice := 5
    invoiceDate := ⟨2010, 12, 1, 9⟩
    country := "United Kingdom" }

/-- The sanitized image of `rawOk`. -/
def sanOk : SanLine :=
  { invoiceNo := "536365"
    customerId := 17850
    description := "WHITE HANGING HEART"
    quantity := 6
    unitPrice := 3
    invoiceDate := ⟨2010, 12, 1, 8⟩
    country := "United Kingdom" }

/-- A clean January row (2011-01-05 is a Wednesday). -/
def cleanJan : CleanLine :=
  { invoiceNo := "536365"
    customerId := 17850
    description := "HEART"
    quantity := 2
    unitPrice := 3
    invoiceDate := ⟨2011, 1, 5, 10⟩
    country := "France"
    totalPrice := 6
    yearMonth := "2011-01"
    month := 1
    dayOfWeek := some "Wednesday"
    hour := 10 }

/-- A clean February row (2011-02-03 is a Thursday). -/
def cleanFeb : CleanLine :=
  { invoiceNo := "536812"
    customerId := 13047
    description := "LANTERN"
    quantity := 7
    unitPrice := 1
    invoiceDate := ⟨2011, 2, 3, 14⟩
    country := "Germany"
    totalPrice := 7
    yearMonth := "2011-02"
    month := 2
    dayOfWeek := some "Thursday"
    hour := 14 }

/-! ### C3: sanitizer invariant -/

/-- C3: every row the sanitizer outputs has strictly positive quantity and
unit price and an integer customer id coerced from a non-null raw id, and
all its other field values are exactly those of some input row: invalid
rows are dropped, surviving rows pass through unmodified. -/
theorem C3_sanitizer_invariant (raws : List RawLine) (s : SanLine)
    (hs : s ∈ sanitize raws) :
    0 < s.quantity ∧ 0 < s.unitPrice ∧
      ∃ r ∈ raws, ∃ c : ℚ, r.customerId = some c ∧
        s.customerId = coerceCustomerId c ∧ s.invoiceNo = r.invoiceNo ∧
        s.description = r.description ∧ s.quantity = r.quantity ∧
        s.unitPrice = r.unitPrice ∧ s.invoiceDate = r.invoiceDate ∧
        s.country = r.country := by
  unfold sanitize at hs
  obtain ⟨r, hr, hfr⟩ := List.mem_filterMap.mp hs
  rcases hc : r.customerId with _ | c
  · rw [hc, Option.none_bind] at hfr
    cases hfr
  · rw [hc, Option.some_bind] at hfr
    by_cases hcond : 0 < r.quantity ∧ 0 < r.unitPrice
    · rw [if_pos hcond] at hfr
      obtain rfl := Option.some.inj hfr
      exact ⟨hcond.1, hcond.2, r, hr, c, hc, rfl, rfl, rfl, rfl, rfl, rfl, rfl⟩
    · rw [if_neg hcond] at hfr
      cases hfr

/-- Witness for C3 at a concrete input: the surviving row of a two-row raw
batch (one valid row, one null-customer return) satisfies the invariant. -/
theorem C3_sanitizer_invariant_witness :
    0 < sanOk.quantity ∧ 0 < sanOk.unitPrice ∧
      ∃ r ∈ [rawOk, rawBad], ∃ c : ℚ, r.customerId = some c ∧
        sanOk.customerId = coerceCustomerId c ∧ sanOk.invoiceNo = r.invoiceNo ∧
        sanOk.description = r.description ∧ sanOk.quantity = r.quantity ∧
        sanOk.unitPrice = r.unitPrice ∧ sanOk.invoiceDate = r.invoiceDate ∧
        sanOk.country = r.country :=
  C3_sanitizer_invariant [rawOk, rawBad] sanOk (by decide)

/-! ### C4: totalPrice derivation -/

/-- C4: on every row produced by the sanitize-then-derive pipeline, the
derived `totalPrice` equals exactly `quantity * unitPrice`, with no
rounding applied. -/
theorem C4_totalPrice_exact (raws : List RawLine) (row : CleanLine)
    (h : row ∈ deriveAll (sanitize raws)) :
    row.totalPrice = (row.quantity : ℚ) * row.unitPrice := by
  obtain ⟨s, _, rfl⟩ := List.mem_map.mp h
  rfl

/-- Witness for C4: the derived image of the surviving row of the two-row
raw batch has `totalPrice = quantity * unitPrice`. -/
theorem C4_totalPrice_exact_witness :
    (derive sanOk).totalPrice = ((derive sanOk).quantity : ℚ) * (derive sanOk).unitPrice := by
  refine C4_totalPrice_exact [rawOk, rawBad] (derive sanOk) ?_
  have h : sanitize [rawOk, rawBad] = [sanOk] := by decide
  rw [deriveAll, h]
  simp

/-! ### C6: empty month selection falls back to the full dataset -/

/-- C6: the `TimeFilter` applied with an empty month selection returns the
full cleaned dataset unchanged, and the fallback-warning flag is raised. -/
theorem C6_empty_selection_fallback (rows : List CleanLine) :
    (timeFilter [] rows).1 = rows ∧ (timeFilter [] rows).2 = true :=
  ⟨rfl, rfl⟩

/-! ### C7: empty filter result halts the pipeline -/

/-- C7: whenever the `TimeFilter` yields zero rows, the pipeline run
produces the `emptyResult` outcome, which carries no aggregate views:
aggregation is halted. -/
theorem C7_empty_filter_halts (months : List Nat) (cleaned : List CleanLine)
    (h : (timeFilter months cleaned).1 = []) :
    (runPipeline months cleaned).2 = PipelineResult.emptyResult := by
  unfold runPipeline
  simp [h]

/-- Witness for C7: selecting month 2 over a dataset that only has a
January row filters everything out and halts the pipeline. -/
theorem C7_empty_filter_halts_witness :
    (runPipeline [2] [cleanJan]).2 = PipelineResult.emptyResult :=
  C7_empty_filter_halts [2] [cleanJan] (by decide)

/-! ### C5: weekday totals are canonical -/

/-- C5: the weekday-totals aggregation always outputs the seven weekdays
exactly once each, in the canonical Monday-to-Sunday order; the output does
not depend on the arrival order of the rows, and a weekday with no matching
rows appears as an explicit zero entry. -/
theorem C5_weekday_totals (rows rows' : List CleanLine)
    (hperm : List.Perm rows' rows) :
    (daily_sales rows).map Prod.fst = day_order ∧
    (daily_sales rows).length = 7 ∧
    daily_sales rows' = daily_sales rows ∧
    ∀ d ∈ day_order, (∀ r ∈ rows, ¬ r.dayOfWeek = some d) →
      (d, (0 : ℚ)) ∈ daily_sales rows := by
  refine ⟨?_, ?_, ?_, ?_⟩
  · unfold daily_sales
    rw [List.map_map]
    exact List.map_id _
  · unfold daily_sales
    rw [List.length_map]
    rfl
  · unfold daily_sales
    refine List.map_congr_left ?_
    intro d _
    rw [sumOver_perm hperm]
  · intro d hd hnone
    have hz : sumOver rows (fun r => r.dayOfWeek = some d) = 0 :=
      sumOver_eq_zero hnone
    unfold daily_sales
    rw [← hz]
    exact List.mem_map_of_mem _ hd

/-- Witness for C5: on a concrete two-row dataset, reversing the arrival
order leaves the weekday totals unchanged, and Sunday (no matching rows)
appears as an explicit zero entry. -/
theorem C5_weekday_totals_witness :
    daily_sales [cleanFeb, cleanJan] = daily_sales [cleanJan, cleanFeb] ∧
    ("Sunday", (0 : ℚ)) ∈ daily_sales [cleanJan, cleanFeb] := by
  have h := C5_weekday_totals [cleanJan, cleanFeb] [cleanFeb, cleanJan] (by decide)
  exact ⟨h.2.2.1, h.2.2.2 "Sunday" (by decide) (by decide)⟩

/-! ### C10: reachability of the empty-result halt -/

/-- C10: when the selected months are all drawn from the offered options
(the distinct months of the cleaned dataset), a non-empty selection always
yields a non-empty filtered set, and the pipeline's empty-result halt fires
exactly when the cleaned dataset itself is empty. -/
theorem C10_emptyResult_unreachable (months : List Nat)
    (cleaned : List CleanLine)
    (hsub : ∀ m ∈ months, m ∈ monthOptions cleaned) :
    (months ≠ [] → (timeFilter months cleaned).1 ≠ []) ∧
    ((runPipeline months cleaned).2 = PipelineResult.emptyResult ↔ cleaned = []) := by
  have hmem : ∀ m ∈ months, ∃ r ∈ cleaned, r.month = m := by
    intro m hm
    have h1 : m ∈ cleaned.map (·.month) :=
      (mem_sortedDedup (· ≤ ·)).mp (hsub m hm)
    obtain ⟨r, hr, hrm⟩ := List.mem_map.mp h1
    exact ⟨r, hr, hrm⟩
  rcases months with _ | ⟨m, ms⟩
  · refine ⟨fun hne => absurd rfl hne, ?_⟩
    by_cases hc : cleaned = []
    · subst hc
      simp [runPipeline, timeFilter]
    · have : cleaned.isEmpty = false := by
        simpa [List.isEmpty_iff] using hc
      simp [runPipeline, timeFilter, this, hc]
  · obtain ⟨r, hr, hrm⟩ := hmem m (List.mem_cons_self m ms)
    have hrf : r ∈ cleaned.filter (fun x => x.month ∈ m :: ms) := by
      refine List.mem_filter.mpr ⟨hr, ?_⟩
      simp [hrm]
    have hfe : cleaned.filter (fun x => x.month ∈ m :: ms) ≠ [] := by
      intro hcontra
      rw [hcontra] at hrf
      cases hrf
    have hcne : cleaned ≠ [] := by
      intro hcontra
      subst hcontra
      cases hr
    have htf : (timeFilter (m :: ms) cleaned).1
        = cleaned.filter (fun x => x.month ∈ m :: ms) := by
      unfold timeFilter
      rw [if_neg (by simp)]
    refine ⟨fun _ => by rw [htf]; exact hfe, ?_⟩
    have hie : (timeFilter (m :: ms) cleaned).1.isEmpty = false := by
      rw [htf]
      simpa [List.isEmpty_iff] using hfe
    simp only [runPipeline, hie]
    simp [hcne]

/-- Witness for C10: with the single offered month selected over a one-row
dataset, the filtered set is non-empty and the empty-result halt does not
fire. -/
theorem C10_emptyResult_unreachable_witness :
    (([1] : List Nat) ≠ [] → (timeFilter [1] [cleanJan]).1 ≠ []) ∧
    ((runPipeline [1] [cleanJan]).2 = PipelineResult.emptyResult ↔ [cleanJan] = []) :=
  C10_emptyResult_unreachable [1] [cleanJan] (by decide)

/-! ### C8: top products by quantity -/

/-- C8: the top-products-by-quantity view has at most 10 entries, is
ordered by strictly descending summed quantity with ties broken by the
fixed key order on descriptions (pandas sorts group keys, and
`nlargest(keep='first')` prefers earlier positions), and is invariant
under permutation of the input rows: incidental input order never decides
the selection. -/
theorem C8_top_products (rows rows' : List CleanLine)
    (hperm : List.Perm rows' rows) :
    (top_selling_products_qty rows).length ≤ 10 ∧
    (top_selling_products_qty rows).Pairwise
      (fun a b => b.2 < a.2 ∨ (a.2 = b.2 ∧ StrLe a.1 b.1 ∧ a.1 ≠ b.1)) ∧
    top_selling_products_qty rows' = top_selling_products_qty rows := by
  refine ⟨?_, ?_, ?_⟩
  · exact List.length_take_le _ _
  · unfold top_selling_products_qty nlargestBy
    refine List.Pairwise.sublist (List.take_sublist _ _) ?_
    exact pairwise_lex_insertionSort _ _
      (pairwise_key_groupSum StrLe (·.description) (·.quantity) rows)
  · unfold top_selling_products_qty
    rw [groupSum_perm StrLe (·.description) (·.quantity) hperm]

/-- Witness for C8 on a concrete two-row dataset and a permutation of it. -/
theorem C8_top_products_witness :
    (top_selling_products_qty [cleanJan, cleanFeb]).length ≤ 10 ∧
    (top_selling_products_qty [cleanJan, cleanFeb]).Pairwise
      (fun a b => b.2 < a.2 ∨ (a.2 = b.2 ∧ StrLe a.1 b.1 ∧ a.1 ≠ b.1)) ∧
    top_selling_products_qty [cleanFeb, cleanJan]
      = top_selling_products_qty [cleanJan, cleanFeb] :=
  C8_top_products [cleanJan, cleanFeb] [cleanFeb, cleanJan] (by decide)

/-! ### C1: the weekday-by-hour matrix -/

theorem filter_and (rows : List CleanLine) (P Q : CleanLine → Prop)
    [DecidablePred P] [DecidablePred Q] :
    rows.filter (fun r => P r ∧ Q r)
      = (rows.filter (fun r => P r)).filter (fun r => Q r) := by
  rw [List.filter_filter]
  refine List.filter_congr ?_
  intro r _
  by_cases hp : P r <;> by_cases hq : Q r <;> simp [hp, hq]

theorem sumOver_and (rows : List CleanLine) (P Q : CleanLine → Prop)
    [DecidablePred P] [DecidablePred Q] :
    sumOver rows (fun r => P r ∧ Q r)
      = sumOver (rows.filter (fun r => P r)) (fun r => Q r) := by
  unfold sumOver
  rw [filter_and]

/-- C1 (amended): over a non-empty filtered set of well-formed rows
(canonical weekday, hour below 24, non-negative total), the weekday-by-hour
matrix has exactly 7 rows in canonical Monday-to-Sunday order, one column
per distinct observed hour (hence at most 24 columns), every cell is
non-negative, a (weekday, hour) combination matching no rows is an
explicit zero cell, and the sum of all cells equals the sum of
`totalPrice` over the filtered set. -/
theorem C1_hourly_matrix (rows : List CleanLine)
    (hne : rows ≠ [])
    (hday : ∀ r ∈ rows, r.dayOfWeek ∈ day_order.map some)
    (hhour : ∀ r ∈ rows, r.hour < 24)
    (htp : ∀ r ∈ rows, 0 ≤ r.totalPrice) :
    (hourly_sales rows).map Prod.fst = day_order ∧
    (hourly_sales rows).length = 7 ∧
    (∀ p ∈ hourly_sales rows, p.2.length = (observedHours rows).length) ∧
    (observedHours rows).length ≤ 24 ∧
    (∀ p ∈ hourly_sales rows, ∀ c ∈ p.2, 0 ≤ c) ∧
    (∀ d ∈ day_order, ∀ h ∈ observedHours rows,
      (∀ r ∈ rows, ¬ (r.dayOfWeek = some d ∧ r.hour = h)) →
      sumOver rows (fun r => r.dayOfWeek = some d ∧ r.hour = h) = 0) ∧
    ((hourly_sales rows).map (fun p => p.2.sum)).sum
      = (rows.map (·.totalPrice)).sum := by
  refine ⟨?_, ?_, ?_, ?_, ?_, ?_, ?_⟩
  · unfold hourly_sales
    rw [List.map_map]
    exact List.map_id _
  · unfold hourly_sales
    rw [List.length_map]
    rfl
  · intro p hp
    obtain ⟨d, _, rfl⟩ := List.mem_map.mp hp
    exact List.length_map _ _
  · have hnd : (observedHours rows).Nodup := nodup_sortedDedup _ _
    have hsub : ∀ h ∈ observedHours rows, h < 24 := by
      intro h hh
      have h1 := (mem_sortedDedup ((· ≤ ·) : Nat → Nat → Prop)).mp hh
      obtain ⟨r, hrf, rfl⟩ := List.mem_map.mp h1
      exact hhour r (List.mem_of_mem_filter hrf)
    have hss : (observedHours rows).toFinset ⊆ Finset.range 24 := by
      intro x hx
      rw [Finset.mem_range]
      exact hsub x (List.mem_toFinset.mp hx)
    calc (observedHours rows).length = (observedHours rows).toFinset.card :=
          (List.toFinset_card_of_nodup hnd).symm
      _ ≤ (Finset.range 24).card := Finset.card_le_card hss
      _ = 24 := Finset.card_range 24
  · intro p hp c hc
    obtain ⟨d, _, rfl⟩ := List.mem_map.mp hp
    obtain ⟨h, _, rfl⟩ := List.mem_map.mp hc
    exact sumOver_nonneg _ htp
  · intro d _ h _ hnone
    exact sumOver_eq_zero hnone
  · have hinner : ∀ d : String, ((observedHours rows).map fun h =>
        sumOver rows (fun r => r.dayOfWeek = some d ∧ r.hour = h)).sum
        = sumOver rows (fun r => r.dayOfWeek = some d) := by
      intro d
      have h1 : ∀ h ∈ observedHours rows,
          sumOver rows (fun r => r.dayOfWeek = some d ∧ r.hour = h)
            = sumOver (rows.filter (fun r => r.dayOfWeek = some d))
                (fun r => r.hour = h) := fun h _ => sumOver_and rows _ _
      rw [List.map_congr_left h1,
        sum_sumOver_partition (·.hour)
          (rows.filter fun r => r.dayOfWeek = some d)
          (observedHours rows) (nodup_sortedDedup _ _)]
      have hall : ∀ r ∈ rows.filter (fun r => r.dayOfWeek = some d),
          r.hour ∈ observedHours rows := by
        intro r hrf
        have hrmem := List.mem_of_mem_filter hrf
        have hrd : r.dayOfWeek = some d := by
          have h2 := List.of_mem_filter hrf
          simpa using h2
        refine (mem_sortedDedup _).mpr ?_
        refine List.mem_map_of_mem _ ?_
        refine List.mem_filter.mpr ⟨hrmem, ?_⟩
        simp [hrd]
      rw [sumOver_filter_true hall]
      rfl
    have houter : ((hourly_sales rows).map (fun p => p.2.sum)).sum
        = (day_order.map
            (fun d => sumOver rows (fun r => r.dayOfWeek = some d))).sum := by
      unfold hourly_sales
      rw [List.map_map]
      refine congrArg List.sum ?_
      refine List.map_congr_left ?_
      intro d _
      exact hinner d
    rw [houter]
    have hKnodup : (day_order.map some).Nodup :=
      (by decide : day_order.Nodup).map (Option.some_injective String)
    have hpart2 : (day_order.map
        (fun d => sumOver rows (fun r => r.dayOfWeek = some d))).sum
        = sumOver rows (fun r => r.dayOfWeek ∈ day_order.map some) := by
      have h3 := sum_sumOver_partition (·.dayOfWeek) rows
        (day_order.map some) hKnodup
      rw [List.map_map] at h3
      simpa [Function.comp] using h3
    rw [hpart2]
    exact sumOver_filter_true hday

/-- Counterexample to C1 as stated: a non-empty filtered set observing
a single hour yields a matrix whose rows each have 1 column, not 24. -/
theorem C1_counterexample :
    ([cleanJan] : List CleanLine) ≠ [] ∧
    ¬ (∀ p ∈ hourly_sales [cleanJan], p.2.length = 24) := by
  refine ⟨by simp, by decide⟩

/-- Witness for C1 (amended) on a concrete two-row filtered set. -/
theorem C1_hourly_matrix_witness :
    (hourly_sales [cleanJan, cleanFeb]).map Prod.fst = day_order ∧
    (hourly_sales [cleanJan, cleanFeb]).length = 7 ∧
    (∀ p ∈ hourly_sales [cleanJan, cleanFeb],
      p.2.length = (observedHours [cleanJan, cleanFeb]).length) ∧
    (observedHours [cleanJan, cleanFeb]).length ≤ 24 ∧
    (∀ p ∈ hourly_sales [cleanJan, cleanFeb], ∀ c ∈ p.2, 0 ≤ c) ∧
    (∀ d ∈ day_order, ∀ h ∈ observedHours [cleanJan, cleanFeb],
      (∀ r ∈ [cleanJan, cleanFeb], ¬ (r.dayOfWeek = some d ∧ r.hour = h)) →
      sumOver [cleanJan, cleanFeb]
        (fun r => r.dayOfWeek = some d ∧ r.hour = h) = 0) ∧
    ((hourly_sales [cleanJan, cleanFeb]).map (fun p => p.2.sum)).sum
      = ([cleanJan, cleanFeb].map (·.totalPrice)).sum :=
  C1_hourly_matrix [cleanJan, cleanFeb] (by simp) (by decide) (by decide)
    (by decide)

/-! ### C2: the country-share branch -/

/-- A one-line dataset template for country-share scenarios. -/
def mkC (c : String) (tp : ℚ) : CleanLine :=
  { invoiceNo := "1"
    customerId := 1
    description := "P"
    quantity := 1
    unitPrice := tp
    invoiceDate := ⟨2011, 1, 5, 10⟩
    country := c
    totalPrice := tp
    yearMonth := "2011-01"
    month := 1
    dayOfWeek := some "Wednesday"
    hour := 10 }

/-- Thirteen countries: twelve with revenue 2 and the United Kingdom with
revenue 1, so the United Kingdom is present in the grouped result but not
among the eleven largest. -/
def exCountryRows : List CleanLine :=
  [mkC "A" 2, mkC "B" 2, mkC "C" 2, mkC "D" 2, mkC "E" 2, mkC "F" 2,
   mkC "G" 2, mkC "H" 2, mkC "I" 2, mkC "J" 2, mkC "K" 2, mkC "L" 2,
   mkC "United Kingdom" 1]

theorem country_sales_exCountryRows :
    country_sales exCountryRows =
      [("A", 2), ("B", 2), ("C", 2), ("D", 2), ("E", 2), ("F", 2), ("G", 2),
       ("H", 2), ("I", 2), ("J", 2), ("K", 2), ("L", 2),
       ("United Kingdom", 1)] := by
  simp +decide [country_sales, groupSum, sortedDedup, sumOver, exCountryRows,
    mkC]

/-- Counterexample to C2 as stated: the United Kingdom is present in the
grouped result's country set, yet the output is the `topN` branch with
eleven entries (the `nlargest(11)` selection) rather than the set of all
non-dominant entries. -/
theorem C2_counterexample :
    "United Kingdom" ∈ (country_sales exCountryRows).map Prod.fst ∧
    country_share_view exCountryRows = CountryBranch.topN
      [("A", 2), ("B", 2), ("C", 2), ("D", 2), ("E", 2), ("F", 2), ("G", 2),
       ("H", 2), ("I", 2), ("J", 2), ("K", 2)] := by
  constructor
  · decide
  · unfold country_share_view country_sales_top_10 nlargestBy
    rw [country_sales_exCountryRows]
    decide

/-- C2 (amended): the branch is selected by whether `"United Kingdom"`
appears among the eleven largest countries by summed revenue; if present,
the output is all grouped entries except the United Kingdom; if absent,
the output is that eleven-entry selection itself, which has at most 11
entries and is sorted by non-increasing revenue. -/
theorem C2_country_branch (rows : List CleanLine) :
    ("United Kingdom" ∈ (country_sales_top_10 rows).map Prod.fst →
      country_share_view rows = CountryBranch.restOfDominant
        ((country_sales rows).filter (fun p => ¬ p.1 = "United Kingdom"))) ∧
    ("United Kingdom" ∉ (country_sales_top_10 rows).map Prod.fst →
      country_share_view rows = CountryBranch.topN (country_sales_top_10 rows)) ∧
    (country_sales_top_10 rows).length ≤ 11 ∧
    (country_sales_top_10 rows).Pairwise (fun a b => b.2 ≤ a.2) := by
  refine ⟨?_, ?_, ?_, ?_⟩
  · intro h
    unfold country_share_view
    rw [if_pos h]
  · intro h
    unfold country_share_view
    rw [if_neg h]
  · exact List.length_take_le _ _
  · unfold country_sales_top_10 nlargestBy country_sales
    refine List.Pairwise.sublist (List.take_sublist _ _) ?_
    refine List.Pairwise.imp ?_ (pairwise_lex_insertionSort _ _
      (pairwise_key_groupSum StrLe (·.country) (·.totalPrice) rows))
    intro a b hab
    rcases hab with h | h
    · exact le_of_lt h
    · exact le_of_eq h.1.symm

/-- Witness for C2 (amended): with only the United Kingdom present the
rest-of-dominant branch fires (and is empty); on the thirteen-country
dataset the top-N branch fires. -/
theorem C2_country_branch_witness :
    country_share_view [mkC "United Kingdom" 1]
      = CountryBranch.restOfDominant [] ∧
    country_share_view exCountryRows
      = CountryBranch.topN (country_sales_top_10 exCountryRows) := by
  constructor
  · have h := (C2_country_branch [mkC "United Kingdom" 1]).1 (by decide)
    rw [h]
    have h2 : ((country_sales [mkC "United Kingdom" 1]).filter
        (fun p => ¬ p.1 = "United Kingdom")) = [] := by decide
    rw [h2]
  · refine (C2_country_branch exCountryRows).2.1 ?_
    unfold country_sales_top_10 nlargestBy
    rw [country_sales_exCountryRows]
    decide

/-! ### C9: non-canonical weekday names -/

/-- A row whose weekday slot received a name outside the canonical seven;
the categorical conversion has already turned it into `none` (`NaN`). -/
def badDayRow : CleanLine :=
  { invoiceNo := "1"
    customerId := 1
    description := "P"
    quantity := 1
    unitPrice := 5
    invoiceDate := ⟨2011, 1, 5, 10⟩
    country := "X"
    totalPrice := 5
    yearMonth := "2011-01"
    month := 1
    dayOfWeek := toDayCategorical "Someday"
    hour := 10 }

/-- Counterexample to C9 as stated: the weekday name `"Someday"` is
silently coerced to the null category, and the row carrying it is silently
dropped from the weekday aggregation (all seven totals are zero although
the row has `totalPrice = 5`); no defect is surfaced anywhere. -/
theorem C9_counterexample :
    toDayCategorical "Someday" = none ∧
    badDayRow.totalPrice = 5 ∧
    daily_sales [badDayRow] = day_order.map (fun d => (d, (0 : ℚ))) := by
  refine ⟨by decide, rfl, by decide⟩

/-- C9 (amended): a weekday name outside the canonical seven is silently
converted to the null category by the categorical conversion, and rows
whose weekday is null are silently ignored by the weekday aggregation —
nothing is surfaced. -/
theorem C9_weekday_silent (s : String) (rows : List CleanLine)
    (hs : s ∉ day_order) :
    toDayCategorical s = none ∧
    daily_sales (rows.filter (fun r => r.dayOfWeek.isSome))
      = daily_sales rows := by
  constructor
  · unfold toDayCategorical
    rw [if_neg hs]
  · unfold daily_sales
    refine List.map_congr_left ?_
    intro d _
    have hfeq : (rows.filter (fun r => r.dayOfWeek.isSome)).filter
        (fun r => r.dayOfWeek = some d)
        = rows.filter (fun r => r.dayOfWeek = some d) := by
      rw [List.filter_filter]
      refine List.filter_congr ?_
      intro r _
      by_cases h : r.dayOfWeek = some d
      · simp [h]
      · simp [h]
    have : sumOver (rows.filter (fun r => r.dayOfWeek.isSome))
        (fun r => r.dayOfWeek = some d)
        = sumOver rows (fun r => r.dayOfWeek = some d) := by
      unfold sumOver
      rw [hfeq]
    rw [this]

/-- Witness for C9 (amended) at the concrete name `"Someday"` and the
concrete one-row dataset carrying it. -/
theorem C9_weekday_silent_witness :
    toDayCategorical "Someday" = none ∧
    daily_sales ([badDayRow].filter (fun r => r.dayOfWeek.isSome))
      = daily_sales [badDayRow] :=
  C9_weekday_silent "Someday" [badDayRow] (by decide)

end PurchaseAnalysis
